import Mathlib

/-!
Verification of the temporal knowledge graph and context prediction engine
(`context_engine/graph/temporal_graph.py` and
`context_engine/prediction/context_predictor.py`).

Modelling conventions:
* Python floats are modelled as `ℚ` (all arithmetic in the source is exact
  on the values the claims speak about).
* `datetime` values are modelled as natural numbers (`AttrVal.vtime`);
  `datetime.now()` is passed in explicitly as a `now : ℕ` argument.
* Python dictionaries are modelled as insertion-ordered association lists
  with unique keys maintained by `dictSet`.
* Python exceptions are modelled with `Except String`.
* The node attribute dictionaries of networkx are heterogeneous, so node
  attribute values are modelled by the sum type `AttrVal`.
-/

/-- A Python attribute value as stored in a networkx node/edge dictionary or
in a prediction payload: `None`, a string, an int, or a `datetime`
(modelled as a natural number tick). -/
inductive AttrVal where
  | vnone : AttrVal
  | vstr (s : String) : AttrVal
  | vint (n : ℤ) : AttrVal
  | vtime (t : ℕ) : AttrVal
deriving Repr, DecidableEq

open AttrVal

/-- Python truthiness of an attribute value (`None` and `""` and `0` are
falsy; a `datetime` is always truthy). -/
def AttrVal.truthy : AttrVal → Bool
  | vnone => false
  | vstr s => !s.isEmpty
  | vint n => decide (n ≠ 0)
  | vtime _ => true

/-- An attribute dictionary: insertion-ordered list of key/value pairs. -/
abbrev AttrDict := List (String × AttrVal)

/-- `d[k] = v` on a Python dict: overwrite in place if the key exists
(keeping its position), otherwise append at the end. -/
def dictSet (d : AttrDict) (k : String) (v : AttrVal) : AttrDict :=
  if d.any (fun p => p.1 == k) then
    d.map (fun p => if p.1 == k then (k, v) else p)
  else d ++ [(k, v)]

/-- `d.update(kvs)` on a Python dict. -/
def dictUpdate (d : AttrDict) (kvs : AttrDict) : AttrDict :=
  kvs.foldl (fun acc kv => dictSet acc kv.1 kv.2) d

/-- `d.get(k)` on a Python dict (`none` models `None`). -/
def dictGet (d : AttrDict) (k : String) : Option AttrVal :=
  (d.find? (fun p => p.1 == k)).map (fun p => p.2)

/-- Truthiness of `d.get(k)` (a missing key yields `None`, which is falsy). -/
def dictGetTruthy (d : AttrDict) (k : String) : Bool :=
  match dictGet d k with
  | none => false
  | some v => v.truthy

/-- Edge payload.  Every edge of the graph is created by `add_temporal_edge`,
which always sets the `relationship`, `strength`, `created_at` and
`last_updated` keys and whose keyword-argument calling convention prevents the
extra attributes from shadowing them, so those four are dedicated fields and
`attrs` holds only the caller-supplied extra attributes. -/
structure EdgeData where
  relationship : String
  strength : ℚ
  created_at : ℕ
  last_updated : ℕ
  attrs : AttrDict
deriving Repr, DecidableEq

/-- The temporal graph state: an insertion-ordered node dictionary
(node id ↦ attribute dict), an edge list (insertion-ordered, as in the
networkx adjacency structure), and the two configuration constants of
`TemporalGraph.__init__`. -/
structure Graph where
  nodes : List (String × AttrDict)
  edges : List (String × String × EdgeData)
  max_nodes : ℕ
  decay_factor : ℚ
deriving Repr, DecidableEq

/-- `networkx.DiGraph.add_node(id, **attrs)`: insert the node, or merge the
new attributes into the existing attribute dict if the node is present. -/
def addNodeNx (g : Graph) (id : String) (attrs : AttrDict) : Graph :=
  if g.nodes.any (fun p => p.1 == id) then
    { g with nodes := g.nodes.map (fun p => if p.1 == id then (id, dictUpdate p.2 attrs) else p) }
  else
    { g with nodes := g.nodes ++ [(id, attrs)] }

/-- Does the node exist (`id in self.graph`)? -/
def hasNode (g : Graph) (id : String) : Bool :=
  g.nodes.any (fun p => p.1 == id)

/-- `self.graph.nodes[id]` (empty dict for a missing node; in the source a
missing node is never looked up). -/
def nodeDataOf (g : Graph) (id : String) : AttrDict :=
  ((g.nodes.find? (fun p => p.1 == id)).map (fun p => p.2)).getD []

/-- `self.graph.has_edge(u, v)`. -/
def hasEdge (g : Graph) (u v : String) : Bool :=
  g.edges.any (fun e => e.1 == u && e.2.1 == v)

/-- Strict comparison used when Python sorts `AttrVal`s; within one
constructor it is the native order, across constructors values are ranked by
constructor (a benign total extension: the source never compares values of
different types). -/
def AttrVal.rank : AttrVal → ℕ
  | vnone => 0
  | vstr _ => 1
  | vint _ => 2
  | vtime _ => 3

/-- Boolean strict order on attribute values. -/
def attrValLt : AttrVal → AttrVal → Bool
  | vstr a, vstr b => decide (a < b)
  | vint a, vint b => decide (a < b)
  | vtime a, vtime b => decide (a < b)
  | x, y => decide (x.rank < y.rank)

/-- Boolean strict lexicographic order on `(key, value)` pairs, as Python
compares the tuples produced by `dict.items()`. -/
def pairLt (p q : String × AttrVal) : Bool :=
  decide (p.1 < q.1) || (p.1 == q.1 && attrValLt p.2 q.2)

/-- Stable insertion into a sorted list: `x` is placed before the first
element it strictly precedes (the stability of Python's `list.sort`). -/
def insertAsc {α : Type} (lt : α → α → Bool) (x : α) : List α → List α
  | [] => [x]
  | y :: ys => if lt x y then x :: y :: ys else y :: insertAsc lt x ys

/-- Stable sort (models Python's stable `sorted`/`list.sort`). -/
def sortAsc {α : Type} (lt : α → α → Bool) : List α → List α
  | [] => []
  | x :: xs => insertAsc lt x (sortAsc lt xs)

/-- A node is eligible for pruning when `data.get('timestamp') or
data.get('created_at')` is truthy. -/
def pruneEligible (d : AttrDict) : Bool :=
  dictGetTruthy d "timestamp" || dictGetTruthy d "created_at"

/-- The sort key of `_prune_old_nodes`:
`data.get('timestamp', data.get('created_at'))`, replaced by `datetime.min`
(modelled as tick 0) when falsy. -/
def pruneKey (d : AttrDict) : AttrVal :=
  match dictGet d "timestamp" with
  | some v => if v.truthy then v else vtime 0
  | none =>
    match dictGet d "created_at" with
    | some v => if v.truthy then v else vtime 0
    | none => vtime 0

/-- `_prune_old_nodes`: remove the oldest `max(1, int(max_nodes*0.1))`
nodes that carry a truthy `timestamp` or `created_at`, together with their
incident edges.  (`int(max_nodes * 0.1)` is modelled as `max_nodes / 10`
on `ℕ`.) -/
def prune_old_nodes (g : Graph) : Graph :=
  let timestamped := g.nodes.filter (fun p => pruneEligible p.2)
  if timestamped.isEmpty then g
  else
    let sortedNodes := sortAsc (fun p q => attrValLt (pruneKey p.2) (pruneKey q.2)) timestamped
    let numToRemove := max 1 (g.max_nodes / 10)
    let toRemove := (sortedNodes.take numToRemove).map (fun p => p.1)
    { g with
      nodes := g.nodes.filter (fun p => !toRemove.contains p.1),
      edges := g.edges.filter
        (fun e => !(toRemove.contains e.1 || toRemove.contains e.2.1)) }

/-- `add_activity_node`: insert/refresh the node with
`node_type='activity'`, the activity type and the timestamp, then prune if
the node count exceeds `max_nodes`. -/
def add_activity_node (g : Graph) (activity_id : String) (activity_type : String)
    (timestamp : ℕ) (attributes : AttrDict) : Graph :=
  let g1 := addNodeNx g activity_id
    ([("node_type", vstr "activity"), ("activity_type", vstr activity_type),
      ("timestamp", vtime timestamp)] ++ attributes)
  if g1.nodes.length > g1.max_nodes then prune_old_nodes g1 else g1

/-- `add_context_node`: insert/refresh the node with `node_type='context'`,
the context name, and `created_at = datetime.now()`.  It never prunes. -/
def add_context_node (g : Graph) (context_id : String) (context_name : String)
    (now : ℕ) (attributes : AttrDict) : Graph :=
  addNodeNx g context_id
    ([("node_type", vstr "context"), ("context_name", vstr context_name),
      ("created_at", vtime now)] ++ attributes)

/-- `add_temporal_edge`: if the edge exists, accumulate its strength
(capped at 1.0), refresh `last_updated` and merge the attributes; otherwise
`networkx.add_edge` creates the edge, silently creating any missing endpoint
node with an empty attribute dictionary. -/
def add_temporal_edge (g : Graph) (from_node to_node : String) (relationship : String)
    (strength : ℚ) (now : ℕ) (attributes : AttrDict) : Graph :=
  if hasEdge g from_node to_node then
    { g with edges := g.edges.map (fun e =>
        if e.1 == from_node && e.2.1 == to_node then
          (e.1, e.2.1,
            { e.2.2 with
              strength := min 1 (e.2.2.strength + strength),
              last_updated := now,
              attrs := dictUpdate e.2.2.attrs attributes })
        else e) }
  else
    let g1 := if hasNode g from_node then g
              else { g with nodes := g.nodes ++ [(from_node, [])] }
    let g2 := if hasNode g1 to_node then g1
              else { g1 with nodes := g1.nodes ++ [(to_node, [])] }
    { g2 with edges := g2.edges ++
        [(from_node, to_node,
          { relationship := relationship, strength := strength,
            created_at := now, last_updated := now, attrs := attributes })] }

/-- `decay_edges`: multiply every edge strength by the effective rate
(`decay_rate or self.decay_factor`, so `None` and `0.0` both fall back to the
configured factor), then remove every edge whose strength is `< 0.1`. -/
def decay_edges (g : Graph) (decay_rate : Option ℚ) : Graph :=
  let rate := match decay_rate with
    | none => g.decay_factor
    | some r => if r == 0 then g.decay_factor else r
  let decayed := g.edges.map
    (fun e => (e.1, e.2.1, { e.2.2 with strength := e.2.2.strength * rate }))
  { g with edges := decayed.filter (fun e => !(decide (e.2.2.strength < 1/10))) }

/-! ### Relevance traversal (`get_related_activities`) and
`predict_next_activities` -/

/-- One entry of the `related` result list of `get_related_activities`. -/
structure RelatedEntry where
  activity_id : String
  relationship : String
  strength : ℚ
  depth : ℕ
  activity_type : Option AttrVal
  timestamp : Option AttrVal
deriving Repr, DecidableEq

/-- The outgoing adjacency of a node, in edge-insertion order, with the edge
payloads (`self.graph.neighbors(u)` together with `self.graph[u][v]`). -/
def outEdges (g : Graph) (u : String) : List (String × EdgeData) :=
  (g.edges.filter (fun e => e.1 == u)).map (fun e => (e.2.1, e.2.2))

/-- The body of the `for neighbor in self.graph.neighbors(current_node)`
loop of `get_related_activities`, threading `(visited, queue, related)`. -/
def bfsExpand (g : Graph) (min_strength : ℚ) (current : String) (depth : ℕ) (cum : ℚ)
    (st : List String × List (String × ℕ × ℚ) × List RelatedEntry) :
    List String × List (String × ℕ × ℚ) × List RelatedEntry :=
  (outEdges g current).foldl
    (fun st nbe =>
      let visited := st.1
      let queue := st.2.1
      let related := st.2.2
      let neighbor := nbe.1
      let ed := nbe.2
      if visited.contains neighbor then st
      else if ed.strength < min_strength then st
      else
        let newStrength := cum * ed.strength
        let nd := nodeDataOf g neighbor
        let related2 :=
          if dictGet nd "node_type" == some (vstr "activity") then
            related ++ [{ activity_id := neighbor, relationship := ed.relationship,
                          strength := newStrength, depth := depth + 1,
                          activity_type := dictGet nd "activity_type",
                          timestamp := dictGet nd "timestamp" }]
          else related
        (visited ++ [neighbor], queue ++ [(neighbor, depth + 1, newStrength)], related2))
    st

/-- The `while queue:` loop of `get_related_activities`.  The loop is driven
by fuel; every queue append accompanies a fresh addition to `visited`, whose
elements are edge targets, so `g.edges.length + 1` units of fuel always
suffice to drain the queue. -/
def bfsLoop (g : Graph) (max_depth : ℕ) (min_strength : ℚ) :
    ℕ → List String → List (String × ℕ × ℚ) → List RelatedEntry → List RelatedEntry
  | 0, _, _, related => related
  | _ + 1, _, [], related => related
  | fuel + 1, visited, (current, depth, cum) :: rest, related =>
    if max_depth ≤ depth then bfsLoop g max_depth min_strength fuel visited rest related
    else
      let st := bfsExpand g min_strength current depth cum (visited, rest, related)
      bfsLoop g max_depth min_strength fuel st.1 st.2.1 st.2.2

/-- `get_related_activities`: depth-limited BFS over outgoing edges from
`activity_id`, followed by the stable descending sort on cumulative
strength. -/
def get_related_activities (g : Graph) (activity_id : String) (max_depth : ℕ)
    (min_strength : ℚ) : List RelatedEntry :=
  if hasNode g activity_id then
    let related := bfsLoop g max_depth min_strength (g.edges.length + 1)
      [activity_id] [(activity_id, 0, 1)] []
    sortAsc (fun a b => decide (b.strength < a.strength)) related
  else []

/-- One entry of the result of `predict_next_activities`. -/
structure NextPrediction where
  activity_id : String
  probability : ℚ
  activity_type : Option AttrVal
  attributes : AttrDict
deriving Repr, DecidableEq

/-- `predict_next_activities`: direct outgoing `followed_by` edges, sorted by
strength descending and truncated to `top_k`. -/
def predict_next_activities (g : Graph) (current_activity_id : String) (top_k : ℕ) :
    List NextPrediction :=
  if hasNode g current_activity_id then
    let predictions := (outEdges g current_activity_id).filterMap
      (fun nbe =>
        if nbe.2.relationship == "followed_by" then
          let nd := nodeDataOf g nbe.1
          some { activity_id := nbe.1, probability := nbe.2.strength,
                 activity_type := dictGet nd "activity_type",
                 attributes := nd.filter (fun kv =>
                   !(kv.1 == "node_type" || kv.1 == "activity_type" || kv.1 == "timestamp")) }
        else none)
    (sortAsc (fun a b => decide (b.probability < a.probability)) predictions).take top_k
  else []

/-! ### Context predictor (`context_predictor.py`) -/

/-- Is `needle` a prefix of `hay` (on character lists)? -/
def isPrefixChars : List Char → List Char → Bool
  | [], _ => true
  | _ :: _, [] => false
  | a :: as, b :: bs => a == b && isPrefixChars as bs

/-- Python's substring test `needle in hay` on character lists. -/
def containsChars (needle : List Char) : List Char → Bool
  | [] => isPrefixChars needle []
  | b :: bs => isPrefixChars needle (b :: bs) || containsChars needle bs

/-- Python's substring test `needle in hay` on strings. -/
def containsSub (needle hay : String) : Bool :=
  containsChars needle.toList hay.toList

/-- Two-decimal rendering of a rational, modelling the `:.2f` format
specifier applied to the confidence scores. -/
def fmt2 (q : ℚ) : String :=
  let c : ℤ := (q * 100 + 1/2).floor
  let render : ℕ → String := fun n =>
    toString (n / 100) ++ "." ++ (if n % 100 < 10 then "0" else "") ++ toString (n % 100)
  if c < 0 then "-" ++ render (-c).toNat else render c.toNat

/-- A prediction candidate dictionary.  The keys `type`, `confidence`,
`data`, `reason` are always present; `text` and `activity_type` only for the
semantic and graph sources respectively, hence optional. -/
structure Prediction where
  ptype : String
  confidence : ℚ
  data : AttrDict
  reason : String
  text : Option String := none
  activity_type : Option AttrVal := none
deriving Repr, DecidableEq

/-- `collections.Counter` built by repeated `counter[k] += 1`: counts are
kept in first-insertion order of the keys. -/
def counterAdd {κ : Type} [BEq κ] (c : List (κ × ℕ)) (k : κ) : List (κ × ℕ) :=
  if c.any (fun p => p.1 == k) then
    c.map (fun p => if p.1 == k then (p.1, p.2 + 1) else p)
  else c ++ [(k, 1)]

/-- Build a `Counter` from a list of keys. -/
def counterOf {κ : Type} [BEq κ] (ks : List κ) : List (κ × ℕ) :=
  ks.foldl counterAdd []

/-- `Counter.most_common(n)`: stable descending sort by count, then take
`n`. -/
def mostCommon {κ : Type} (c : List (κ × ℕ)) (n : ℕ) : List (κ × ℕ) :=
  (sortAsc (fun a b => decide (b.2 < a.2)) c).take n

/-- The `current_activity` record handed to `predict_context`; each field
models the presence/absence of the dictionary key. -/
structure Activity where
  activity_id : Option String := none
  app_name : Option String := none
  window_title : Option String := none
  file_path : Option String := none
  url : Option String := none
deriving Repr, DecidableEq

/-- Python truthiness of `activity.get(field)` for an optional string. -/
def truthyOptStr : Option String → Bool
  | none => false
  | some s => !s.isEmpty

/-- `_build_context_description`: concatenate the available fields as
`"Field: value"` joined by `" | "`, falling back to `"Current activity"`
when every field is absent or blank. -/
def build_context_description (a : Activity) : String :=
  let parts :=
    (if truthyOptStr a.app_name then ["Application: " ++ a.app_name.getD ""] else []) ++
    (if truthyOptStr a.window_title then ["Window: " ++ a.window_title.getD ""] else []) ++
    (if truthyOptStr a.file_path then ["File: " ++ a.file_path.getD ""] else []) ++
    (if truthyOptStr a.url then ["URL: " ++ a.url.getD ""] else [])
  if parts.isEmpty then "Current activity" else String.intercalate " | " parts

/-- A result of the external semantic search collaborator
(`EmbeddingStore.search_similar`). -/
structure SearchResult where
  text : String
  metadata : AttrDict
  similarity : ℚ
deriving Repr, DecidableEq

/-- A record of the external activity-history collaborator
(`ActivityDatabase.get_recent_activities`); the timestamp is modelled by its
hour and weekday, the only components the predictor reads. -/
structure ActivityRecord where
  ts_hour : ℤ
  ts_weekday : ℤ
  app_name : Option String := none
  window_title : Option String := none
  file_path : Option String := none
  url : Option String := none
deriving Repr, DecidableEq

/-- The semantic search collaborator: `(query_text, n_results, threshold) ↦
results`, raising modelled as `Except.error`. -/
abbrev SearchFn := String → ℕ → ℚ → Except String (List SearchResult)

/-- The history collaborator: `(limit, hours) ↦ records`, raising modelled
as `Except.error`. -/
abbrev RecentFn := ℕ → ℕ → Except String (List ActivityRecord)

/-- `_predict_from_semantics`: one candidate per search result; an exception
from the collaborator propagates (the source has no handler). -/
def predict_from_semantics (search : SearchFn) (context_description : String)
    (n_results : ℕ) : Except String (List Prediction) :=
  (search context_description n_results (1/2)).map
    (fun rs => rs.map (fun r =>
      { ptype := "semantic", confidence := r.similarity, data := r.metadata,
        text := some r.text,
        reason := "Semantically similar (score: " ++ fmt2 r.similarity ++ ")" }))

/-- `_predict_from_graph`: one candidate per `predict_next_activities`
result. -/
def predict_from_graph (g : Graph) (activity_id : String) (top_k : ℕ) : List Prediction :=
  (predict_next_activities g activity_id top_k).map
    (fun pr =>
      { ptype := "graph", confidence := pr.probability, data := pr.attributes,
        activity_type := pr.activity_type,
        reason := "Historically follows current activity (" ++ fmt2 pr.probability ++ ")" })

/-- `_predict_from_time_patterns`: count `(app_name, window_title)` pairs of
history records whose hour is within ±1 of the current hour and whose
weekday matches, over the `3×n` most recent qualifying records. -/
def predict_from_time_patterns (recent : RecentFn) (hour weekday : ℤ)
    (n_results : ℕ) : Except String (List Prediction) := do
  let recents ← recent 1000 (24 * 7)
  let timeWindow := recents.filter
    (fun a => decide ((a.ts_hour - hour).natAbs ≤ 1) && a.ts_weekday == weekday)
  let counter := counterOf
    ((timeWindow.take (n_results * 3)).map (fun a => (a.app_name, a.window_title)))
  let total := (counter.map (fun p => p.2)).sum
  pure ((mostCommon counter n_results).map (fun kc =>
    let conf : ℚ := if 0 < total then (kc.2 : ℚ) / (total : ℚ) else 0
    { ptype := "temporal_pattern", confidence := conf,
      data := [("app_name", match kc.1.1 with | none => vnone | some s => vstr s),
               ("window_title", match kc.1.2 with | none => vnone | some s => vstr s)],
      reason := "Common activity at this time (" ++ toString kc.2 ++ " occurrences)" }))

/-- `_predict_from_recent_context`: count apps and files over the last hour
of history and emit continuation candidates with confidence
`min(0.9, count/len(recent))`. -/
def predict_from_recent_context (recent : RecentFn) (n_results : ℕ) :
    Except String (List Prediction) := do
  let rs ← recent 20 1
  if rs.isEmpty then pure []
  else
    let appCounter := counterOf
      ((rs.filter (fun a => truthyOptStr a.app_name)).map (fun a => a.app_name.getD ""))
    let fileCounter := counterOf
      ((rs.filter (fun a => truthyOptStr a.file_path)).map (fun a => a.file_path.getD ""))
    let appPreds := (mostCommon appCounter n_results).map (fun kc =>
      ({ ptype := "context_continuation",
         confidence := min (9/10) ((kc.2 : ℚ) / (rs.length : ℚ)),
         data := [("app_name", vstr kc.1)],
         reason := "Recent focus (" ++ toString kc.2 ++ " recent activities)" } : Prediction))
    let filePreds := (mostCommon fileCounter n_results).map (fun kc =>
      ({ ptype := "context_continuation",
         confidence := min (9/10) ((kc.2 : ℚ) / (rs.length : ℚ)),
         data := [("file_path", vstr kc.1)],
         reason := "Recently accessed (" ++ toString kc.2 ++ " times)" } : Prediction))
    pure (appPreds ++ filePreds)

/-- The deduplication key of `_rank_and_deduplicate`:
`tuple(sorted(data.items()))`. -/
def sortPairs (d : AttrDict) : AttrDict :=
  sortAsc pairLt d

/-- One step of the merge loop of `_rank_and_deduplicate` over the
insertion-ordered merged dictionary (key, first candidate, merge count). -/
def mergeStep (merged : List (AttrDict × Prediction × ℕ)) (pred : Prediction) :
    List (AttrDict × Prediction × ℕ) :=
  let key := sortPairs pred.data
  if merged.any (fun e => e.1 == key) then
    merged.map (fun e =>
      if e.1 == key then
        let existing := e.2.1
        let count := e.2.2
        (e.1,
         { existing with
           confidence := (existing.confidence * count + pred.confidence) / (count + 1),
           reason := if containsSub pred.reason existing.reason then existing.reason
                     else existing.reason ++ "; " ++ pred.reason },
         count + 1)
      else e)
  else merged ++ [(key, pred, 1)]

/-- `_rank_and_deduplicate`: merge by payload key, stable-sort descending by
confidence, truncate to `max_results`. -/
def rank_and_deduplicate (predictions : List Prediction) (max_results : ℕ) : List Prediction :=
  let merged := predictions.foldl mergeStep []
  let ranked := sortAsc (fun a b => decide (b.confidence < a.confidence))
    (merged.map (fun e => e.2.1))
  ranked.take max_results

/-- `predict_context`: build the description, gather the four signal
sources (exceptions from the external collaborators propagate), merge and
rank, then drop candidates below `min_confidence`. -/
def predict_context (g : Graph) (search : SearchFn) (recent : RecentFn)
    (hour weekday : ℤ) (min_confidence : ℚ) (current : Activity)
    (max_results : ℕ) : Except String (List Prediction) := do
  let contextDescription := build_context_description current
  let semanticPreds ← predict_from_semantics search contextDescription max_results
  let graphPreds := match current.activity_id with
    | some aid => predict_from_graph g aid max_results
    | none => []
  let temporalPreds ← predict_from_time_patterns recent hour weekday max_results
  let continuationPreds ← predict_from_recent_context recent max_results
  let ranked := rank_and_deduplicate
    (semanticPreds ++ graphPreds ++ temporalPreds ++ continuationPreds) max_results
  pure (ranked.filter (fun p => min_confidence ≤ p.confidence))

/-! ### Helper lemmas: the stable sort -/

theorem perm_insertAsc {α : Type} (lt : α → α → Bool) (x : α) :
    ∀ l : List α, (insertAsc lt x l).Perm (x :: l)
  | [] => List.Perm.refl _
  | y :: ys => by
    by_cases h : lt x y
    · simp [insertAsc, h]
    · simp only [insertAsc, h, if_neg, Bool.not_eq_true]
      exact ((perm_insertAsc lt x ys).cons y).trans (List.Perm.swap x y ys)

theorem perm_sortAsc {α : Type} (lt : α → α → Bool) :
    ∀ l : List α, (sortAsc lt l).Perm l
  | [] => List.Perm.refl _
  | x :: xs =>
    (perm_insertAsc lt x (sortAsc lt xs)).trans ((perm_sortAsc lt xs).cons x)

theorem mem_sortAsc {α : Type} {lt : α → α → Bool} {a : α} {l : List α} :
    a ∈ sortAsc lt l ↔ a ∈ l :=
  (perm_sortAsc lt l).mem_iff

theorem length_sortAsc {α : Type} (lt : α → α → Bool) (l : List α) :
    (sortAsc lt l).length = l.length :=
  (perm_sortAsc lt l).length_eq

theorem pairwise_insertAsc {α : Type} {lt : α → α → Bool}
    (hasymm : ∀ a b, lt a b = true → lt b a = false)
    (htrans : ∀ a b c, lt a b = true → lt b c = true → lt a c = true)
    {x : α} :
    ∀ {l : List α}, l.Pairwise (fun a b => lt b a = false) →
      (insertAsc lt x l).Pairwise (fun a b => lt b a = false)
  | [], _ => by simp [insertAsc]
  | y :: ys, h => by
    rcases List.pairwise_cons.mp h with ⟨hy, hys⟩
    by_cases hxy : lt x y
    · simp only [insertAsc, hxy, if_true]
      refine List.pairwise_cons.mpr ⟨?_, h⟩
      intro z hz
      rcases List.mem_cons.mp hz with hzy | hz'
      · rw [hzy]; exact hasymm x y hxy
      · by_contra hzx
        have hzx' : lt z x = true := by
          cases hb : lt z x
          · exact absurd hb hzx
          · rfl
        have : lt z y = true := htrans z x y hzx' hxy
        rw [hy z hz'] at this
        exact Bool.false_ne_true this
    · have hxy' : lt x y = false := by
        cases hb : lt x y
        · rfl
        · exact absurd hb hxy
      simp only [insertAsc, hxy, if_false]
      refine List.pairwise_cons.mpr ⟨?_, pairwise_insertAsc hasymm htrans hys⟩
      intro z hz
      rcases List.mem_cons.mp ((perm_insertAsc lt x ys).mem_iff.mp hz) with hzx | hzys
      · rw [hzx]; exact hxy'
      · exact hy z hzys

theorem pairwise_sortAsc {α : Type} {lt : α → α → Bool}
    (hasymm : ∀ a b, lt a b = true → lt b a = false)
    (htrans : ∀ a b c, lt a b = true → lt b c = true → lt a c = true) :
    ∀ l : List α, (sortAsc lt l).Pairwise (fun a b => lt b a = false)
  | [] => List.Pairwise.nil
  | x :: xs => pairwise_insertAsc hasymm htrans (pairwise_sortAsc hasymm htrans xs)

/-! ### Helper lemmas: the comparison orders -/

theorem attrValLt_asymm (x y : AttrVal) (h : attrValLt x y = true) :
    attrValLt y x = false := by
  cases x <;> cases y <;>
    simp only [attrValLt, AttrVal.rank, decide_eq_true_eq, decide_eq_false_iff_not] at * <;>
    first
      | omega
      | exact lt_asymm h

theorem attrValLt_trans (x y z : AttrVal) (hxy : attrValLt x y = true)
    (hyz : attrValLt y z = true) : attrValLt x z = true := by
  cases x <;> cases y <;> cases z <;>
    simp only [attrValLt, AttrVal.rank, decide_eq_true_eq] at * <;>
    first
      | omega
      | exact lt_trans hxy hyz

theorem attrValLt_conn (x y : AttrVal) (hxy : attrValLt x y = false)
    (hyx : attrValLt y x = false) : x = y := by
  cases x <;> cases y <;>
    simp only [attrValLt, AttrVal.rank, decide_eq_false_iff_not, not_lt] at * <;>
    first
      | rfl
      | omega
      | exact congrArg _ (le_antisymm hyx hxy)

theorem pairLt_asymm (p q : String × AttrVal) (h : pairLt p q = true) :
    pairLt q p = false := by
  simp only [pairLt, Bool.or_eq_true, Bool.or_eq_false_iff, Bool.and_eq_true,
    Bool.and_eq_false_iff, decide_eq_true_eq, decide_eq_false_iff_not, beq_iff_eq,
    beq_eq_false_iff_ne] at *
  rcases h with h1 | ⟨he, hv⟩
  · exact ⟨lt_asymm h1, Or.inl fun hq => absurd (hq ▸ h1) (lt_irrefl _)⟩
  · refine ⟨fun hlt => absurd (he ▸ hlt) (lt_irrefl _), Or.inr ?_⟩
    exact attrValLt_asymm _ _ hv

theorem pairLt_trans (p q r : String × AttrVal) (hpq : pairLt p q = true)
    (hqr : pairLt q r = true) : pairLt p r = true := by
  simp only [pairLt, Bool.or_eq_true, Bool.and_eq_true, decide_eq_true_eq,
    beq_iff_eq] at *
  rcases hpq with h1 | ⟨he1, hv1⟩
  · rcases hqr with h2 | ⟨he2, hv2⟩
    · exact Or.inl (lt_trans h1 h2)
    · exact Or.inl (he2 ▸ h1)
  · rcases hqr with h2 | ⟨he2, hv2⟩
    · exact Or.inl (he1 ▸ h2)
    · exact Or.inr ⟨he1.trans he2, attrValLt_trans _ _ _ hv1 hv2⟩

theorem pairLt_conn (p q : String × AttrVal) (hpq : pairLt p q = false)
    (hqp : pairLt q p = false) : p = q := by
  simp only [pairLt, Bool.or_eq_false_iff, Bool.and_eq_false_iff,
    decide_eq_false_iff_not, beq_eq_false_iff_ne, not_lt] at *
  obtain ⟨hle1, h1⟩ := hpq
  obtain ⟨hle2, h2⟩ := hqp
  have heq : p.1 = q.1 := le_antisymm hle2 hle1
  have hveq : p.2 = q.2 := by
    rcases h1 with h1 | h1
    · exact absurd heq h1
    · rcases h2 with h2 | h2
      · exact absurd heq.symm h2
      · exact attrValLt_conn _ _ h1 h2
  exact Prod.ext heq hveq

/-! ### The claims -/

/-- Claim C1 (counterexample): `add_temporal_edge` on an empty graph with
both endpoints missing is not rejected and does not leave the graph
unchanged: it silently creates both endpoint nodes (with empty attribute
dictionaries) and the edge. -/
theorem claim_C1_counterexample :
    add_temporal_edge { nodes := [], edges := [], max_nodes := 10, decay_factor := 95/100 }
      "a" "b" "rel" (1/2) 0 [] =
    { nodes := [("a", []), ("b", [])],
      edges := [("a", "b", EdgeData.mk "rel" (1/2) 0 0 [])],
      max_nodes := 10, decay_factor := 95/100 } := by
  rfl

/-- Claim C1 (amended): when the edge is absent and at least one endpoint
node does not exist, `add_temporal_edge` silently creates the missing
endpoints and appends the edge; the graph changes and no error is
reported. -/
theorem claim_C1_amended_holds (g : Graph) (a b rel : String) (s : ℚ) (now : ℕ)
    (attrs : AttrDict) (hnoedge : hasEdge g a b = false)
    (hmiss : hasNode g a = false ∨ hasNode g b = false) :
    hasNode (add_temporal_edge g a b rel s now attrs) a = true ∧
    hasNode (add_temporal_edge g a b rel s now attrs) b = true ∧
    (add_temporal_edge g a b rel s now attrs).edges =
      g.edges ++ [(a, b, EdgeData.mk rel s now now attrs)] ∧
    add_temporal_edge g a b rel s now attrs ≠ g := by
  have hedges : (add_temporal_edge g a b rel s now attrs).edges =
      g.edges ++ [(a, b, EdgeData.mk rel s now now attrs)] := by
    simp only [add_temporal_edge, hnoedge, Bool.false_eq_true, if_false]
    split <;> split <;> rfl
  have hA : hasNode (add_temporal_edge g a b rel s now attrs) a = true := by
    simp only [add_temporal_edge, hnoedge, Bool.false_eq_true, if_false]
    split
    next h1 =>
      split
      next => simpa [hasNode] using h1
      next => simpa [hasNode, List.any_append] using Or.inl h1
    next h1 =>
      split <;> simp [hasNode, List.any_append]
  have hB : hasNode (add_temporal_edge g a b rel s now attrs) b = true := by
    simp only [add_temporal_edge, hnoedge, Bool.false_eq_true, if_false]
    split
    next h1 =>
      split
      next h2 => simpa [hasNode] using h2
      next => simp [hasNode, List.any_append]
    next h1 =>
      split
      next h2 => simpa [hasNode] using h2
      next => simp [hasNode, List.any_append]
  refine ⟨hA, hB, hedges, fun hEq => ?_⟩
  rw [hEq] at hedges
  have := congrArg List.length hedges
  simp at this

/-- Claim C1 (witness): the amended statement applied to a concrete graph
with one unrelated node and both endpoints missing. -/
theorem claim_C1_witness :
    hasNode (add_temporal_edge (Graph.mk [("x", [])] [] 5 (1/2))
      "a" "b" "follows" 1 7 []) "a" = true ∧
    hasNode (add_temporal_edge (Graph.mk [("x", [])] [] 5 (1/2))
      "a" "b" "follows" 1 7 []) "b" = true ∧
    (add_temporal_edge (Graph.mk [("x", [])] [] 5 (1/2))
      "a" "b" "follows" 1 7 []).edges =
      [] ++ [("a", "b", EdgeData.mk "follows" 1 7 7 [])] ∧
    add_temporal_edge (Graph.mk [("x", [])] [] 5 (1/2))
      "a" "b" "follows" 1 7 [] ≠ Graph.mk [("x", [])] [] 5 (1/2) :=
  claim_C1_amended_holds _ "a" "b" "follows" 1 7 [] (by rfl) (Or.inl (by rfl))

/-- Claim C3: decaying with an explicit rate `r ∈ (0, 1)` leaves the nodes
and configuration untouched, multiplies every edge strength by exactly `r`,
keeps every edge whose decayed strength is at least `0.1` with all other
fields unchanged, and every surviving edge is such a decayed original with
strength at least `0.1`. -/
theorem claim_C3_decay (g : Graph) (r : ℚ) (h0 : 0 < r) (h1 : r < 1) :
    (decay_edges g (some r)).nodes = g.nodes ∧
    (decay_edges g (some r)).max_nodes = g.max_nodes ∧
    (decay_edges g (some r)).decay_factor = g.decay_factor ∧
    (∀ u v ed, (u, v, ed) ∈ g.edges → ¬ ed.strength * r < 1/10 →
      (u, v, { ed with strength := ed.strength * r }) ∈ (decay_edges g (some r)).edges) ∧
    (∀ u v ed', (u, v, ed') ∈ (decay_edges g (some r)).edges →
      ¬ ed'.strength < 1/10 ∧
      ∃ ed, (u, v, ed) ∈ g.edges ∧ ed' = { ed with strength := ed.strength * r }) := by
  have hr : (r == 0) = false := by
    simp only [beq_eq_false_iff_ne, ne_eq]
    exact h0.ne'
  refine ⟨rfl, rfl, rfl, ?_, ?_⟩
  · intro u v ed hmem hlt
    simp only [decay_edges, hr, if_false, List.mem_filter, List.mem_map,
      Bool.not_eq_true', decide_eq_false_iff_not]
    exact ⟨⟨(u, v, ed), hmem, rfl⟩, hlt⟩
  · intro u v ed' hmem
    simp only [decay_edges, hr, if_false, List.mem_filter, List.mem_map,
      Bool.not_eq_true', decide_eq_false_iff_not] at hmem
    obtain ⟨⟨⟨u0, v0, ed0⟩, hmem0, heq⟩, hge⟩ := hmem
    simp only [Prod.mk.injEq] at heq
    obtain ⟨rfl, rfl, h3⟩ := heq
    exact ⟨hge, ed0, hmem0, h3.symm⟩

/-- Claim C3 (witness): decay at rate `0.95` applied to a one-edge graph
keeps the edge with strength exactly `(1/2) * (95/100)`. -/
theorem claim_C3_witness :
    ("a", "b", EdgeData.mk "rel" ((1/2) * (95/100)) 3 4 []) ∈
      (decay_edges (Graph.mk [("a", []), ("b", [])]
        [("a", "b", EdgeData.mk "rel" (1/2) 3 4 [])] 10 (95/100))
        (some (95/100))).edges :=
  (claim_C3_decay _ (95/100) (by norm_num) (by norm_num)).2.2.2.1 "a" "b"
    (EdgeData.mk "rel" (1/2) 3 4 []) (by simp) (by norm_num)

/-- Claim C8 (counterexample): a raising semantic-search collaborator makes
the whole prediction request fail with that error, even though the other
sources are healthy. -/
theorem claim_C8_counterexample :
    predict_context { nodes := [], edges := [], max_nodes := 10, decay_factor := 95/100 }
      (fun _ _ _ => Except.error "search unavailable") (fun _ _ => Except.ok [])
      10 2 (3/5) {} 10 = Except.error "search unavailable" := by
  rfl

/-- Claim C8 (amended): an exception raised by the semantic-search
collaborator, or by the history collaborator when the search succeeds,
propagates out of `predict_context` and fails the entire request; the other
signal sources are never consulted for a partial result. -/
theorem claim_C8_amended_holds :
    (∀ (e : String) (g : Graph) (recent : RecentFn) (hour weekday : ℤ) (minC : ℚ)
       (cur : Activity) (maxR : ℕ),
      predict_context g (fun _ _ _ => Except.error e) recent hour weekday minC cur maxR =
        Except.error e) ∧
    (∀ (e : String) (g : Graph) (rs : List SearchResult) (hour weekday : ℤ) (minC : ℚ)
       (cur : Activity) (maxR : ℕ),
      predict_context g (fun _ _ _ => Except.ok rs) (fun _ _ => Except.error e)
        hour weekday minC cur maxR = Except.error e) := by
  constructor <;> intros <;>
    simp [predict_context, predict_from_semantics, predict_from_time_patterns,
      Except.map, bind, Except.bind]

/-- Claim C9 (counterexample): a prediction request whose current activity
has no app name, window title, file path or url is not rejected: the
description falls back to `"Current activity"` and the request returns a
normal (here empty) prediction list. -/
theorem claim_C9_counterexample :
    predict_context { nodes := [], edges := [], max_nodes := 10, decay_factor := 95/100 }
      (fun _ _ _ => Except.ok []) (fun _ _ => Except.ok []) 10 2 (3/5) {} 10 =
      Except.ok [] ∧
    build_context_description {} = "Current activity" := by
  constructor <;> rfl

/-- Claim C9 (amended): for every activity whose four description fields
are absent or blank, the query text falls back to `"Current activity"`, and
the request proceeds normally (here: blank-string fields, returning a
normal empty list) instead of failing. -/
theorem claim_C9_amended_holds :
    (∀ a : Activity, truthyOptStr a.app_name = false → truthyOptStr a.window_title = false →
      truthyOptStr a.file_path = false → truthyOptStr a.url = false →
      build_context_description a = "Current activity") ∧
    predict_context { nodes := [], edges := [], max_nodes := 10, decay_factor := 95/100 }
      (fun _ _ _ => Except.ok []) (fun _ _ => Except.ok []) 10 2 (3/5)
      { app_name := some "", window_title := some "", file_path := some "", url := some "" }
      10 = Except.ok [] := by
  constructor
  · intro a h1 h2 h3 h4
    simp [build_context_description, h1, h2, h3, h4]
  · rfl

/-- Claim C9 (witness): the fallback description applied to a concrete
blank activity. -/
theorem claim_C9_witness :
    build_context_description { app_name := some "" } = "Current activity" :=
  claim_C9_amended_holds.1 { app_name := some "" } (by rfl) (by rfl) (by rfl) (by rfl)

/-- Claim C10: an explicit decay rate of `0.0` is falsy in
`decay_rate or self.decay_factor`, so `decay_edges` behaves exactly as a
call with no rate argument: strengths are multiplied by the configured
default factor, not zeroed. -/
theorem claim_C10_zero_rate (g : Graph) :
    decay_edges g (some 0) = decay_edges g none := by
  simp [decay_edges]

/-- Claim C4 (counterexample): with `max_nodes = 1`, two context-node
upserts leave the graph with 2 nodes at rest — `add_context_node` never
triggers pruning, so the capacity bound is not an invariant of context-node
insertion. -/
theorem claim_C4_counterexample :
    (add_context_node (add_context_node
        { nodes := [], edges := [], max_nodes := 1, decay_factor := 95/100 }
        "c1" "Ctx" 0 []) "c2" "Ctx" 1 []).nodes.length = 2 ∧
    (add_context_node (add_context_node
        { nodes := [], edges := [], max_nodes := 1, decay_factor := 95/100 }
        "c1" "Ctx" 0 []) "c2" "Ctx" 1 []).max_nodes = 1 := by
  constructor <;> rfl

/-- Claim C6: `predict_context` truncates the merged, confidence-sorted
candidate set to `max_results` (inside `rank_and_deduplicate`) and only then
applies the `min_confidence` filter, so the result can hold fewer than
`max_results` items or none; with threshold `0.6`, fused confidences
`[0.9, 0.5, 0.7]` yield exactly the `0.9` and `0.7` entries in that
order. -/
theorem claim_C6_gate :
    (∀ (g : Graph) (search : SearchFn) (recent : RecentFn) (hour weekday : ℤ)
       (minC : ℚ) (cur : Activity) (maxR : ℕ) (S T C : List Prediction),
      predict_from_semantics search (build_context_description cur) maxR = Except.ok S →
      predict_from_time_patterns recent hour weekday maxR = Except.ok T →
      predict_from_recent_context recent maxR = Except.ok C →
      predict_context g search recent hour weekday minC cur maxR =
        Except.ok ((rank_and_deduplicate
          (S ++ (match cur.activity_id with
                 | some aid => predict_from_graph g aid maxR
                 | none => []) ++ T ++ C) maxR).filter
          (fun p => minC ≤ p.confidence))) ∧
    (rank_and_deduplicate
      [Prediction.mk "semantic" (9/10) [("app_name", vstr "A")] "r9" none none,
       Prediction.mk "semantic" (1/2) [("app_name", vstr "B")] "r5" none none,
       Prediction.mk "semantic" (7/10) [("app_name", vstr "C")] "r7" none none] 10).filter
      (fun p => (3/5 : ℚ) ≤ p.confidence) =
    [Prediction.mk "semantic" (9/10) [("app_name", vstr "A")] "r9" none none,
     Prediction.mk "semantic" (7/10) [("app_name", vstr "C")] "r7" none none] ∧
    (rank_and_deduplicate
      [Prediction.mk "semantic" (1/2) [("app_name", vstr "B")] "r5" none none] 10).filter
      (fun p => (3/5 : ℚ) ≤ p.confidence) = [] := by
  refine ⟨?_, ?_, ?_⟩
  · intro g search recent hour weekday minC cur maxR S T C hS hT hC
    simp [predict_context, hS, hT, hC, bind, Except.bind, pure, Except.pure]
  · norm_num [rank_and_deduplicate, mergeStep, sortPairs, sortAsc, insertAsc, pairLt,
      attrValLt, List.filter, List.foldl, containsSub]
  · norm_num [rank_and_deduplicate, mergeStep, sortPairs, sortAsc, insertAsc, pairLt,
      attrValLt, List.filter, List.foldl, containsSub]

/-- Claim C6 (witness): the pipeline shape applied to concrete collaborators
that return no candidates. -/
theorem claim_C6_witness :
    predict_context (Graph.mk [] [] 10 1) (fun _ _ _ => Except.ok [])
      (fun _ _ => Except.ok []) 10 2 (3/5) {} 10 = Except.ok [] :=
  claim_C6_gate.1 (Graph.mk [] [] 10 1) (fun _ _ _ => Except.ok [])
    (fun _ _ => Except.ok []) 10 2 (3/5) {} 10 [] [] [] rfl rfl rfl

/-- Claim C2: candidates merge exactly when their payloads agree as
order-independent collections of (field, value) pairs (the sorted-tuple keys
coincide iff the payloads are permutations); merging into an entry with
merge count `n` yields the running average `(old*n + incoming)/(n+1)` and
appends the incoming justification with `"; "` iff it is not already a
substring; concretely, payload-equal candidates with confidences `0.4` and
`0.8` fuse to one candidate with confidence `0.6` whose justification
contains both reasons. -/
theorem claim_C2_fusion_merge :
    (∀ d₁ d₂ : AttrDict, sortPairs d₁ = sortPairs d₂ ↔ d₁.Perm d₂) ∧
    (∀ (ms : List (AttrDict × Prediction × ℕ)) (p : Prediction) (k : AttrDict)
       (e : Prediction) (n : ℕ), (k, e, n) ∈ ms → k = sortPairs p.data →
      (k, { e with
            confidence := (e.confidence * n + p.confidence) / (n + 1),
            reason := if containsSub p.reason e.reason then e.reason
                      else e.reason ++ "; " ++ p.reason }, n + 1) ∈ mergeStep ms p) ∧
    rank_and_deduplicate
      [Prediction.mk "semantic" (2/5) [("app_name", vstr "X"), ("file_path", vstr "f")]
        "reasonA" none none,
       Prediction.mk "graph" (4/5) [("file_path", vstr "f"), ("app_name", vstr "X")]
        "reasonB" none none] 10 =
    [Prediction.mk "semantic" (3/5) [("app_name", vstr "X"), ("file_path", vstr "f")]
      "reasonA; reasonB" none none] ∧
    containsSub "reasonA" "reasonA; reasonB" = true ∧
    containsSub "reasonB" "reasonA; reasonB" = true := by
  refine ⟨?_, ?_, ?_, by decide, by decide⟩
  · intro d₁ d₂
    constructor
    · intro h
      have h1 : d₁.Perm (sortPairs d₁) := (perm_sortAsc pairLt d₁).symm
      rw [h] at h1
      exact h1.trans (perm_sortAsc pairLt d₂)
    · intro hperm
      have hs1 := pairwise_sortAsc pairLt_asymm pairLt_trans d₁
      have hs2 := pairwise_sortAsc pairLt_asymm pairLt_trans d₂
      have hp : (sortPairs d₁).Perm (sortPairs d₂) :=
        (perm_sortAsc pairLt d₁).trans (hperm.trans (perm_sortAsc pairLt d₂).symm)
      exact @List.eq_of_perm_of_sorted _ _
        ⟨fun a b h1 h2 => pairLt_conn a b h2 h1⟩ _ _ hp hs1 hs2
  · intro ms p k e n hmem hkey
    subst hkey
    have hany : ms.any (fun x => x.1 == sortPairs p.data) = true :=
      List.any_eq_true.mpr ⟨(sortPairs p.data, e, n), hmem, by simp⟩
    simp only [mergeStep, hany, if_true]
    refine List.mem_map.mpr ⟨(sortPairs p.data, e, n), hmem, ?_⟩
    simp
  · norm_num +decide [rank_and_deduplicate, mergeStep, sortPairs, sortAsc, insertAsc,
      pairLt, attrValLt, containsSub, containsChars, isPrefixChars, List.foldl,
      List.filter]

/-- Claim C2 (witness): the merge formula applied to a concrete merged entry
with count 1 and an incoming candidate. -/
theorem claim_C2_witness :
    (([] : AttrDict),
     Prediction.mk "a" (((1 : ℚ) * ((1 : ℕ) : ℚ) + 3) / (((1 : ℕ) : ℚ) + 1)) []
       (if containsSub "r2" "r1" then "r1" else "r1" ++ "; " ++ "r2") none none,
     1 + 1) ∈
      mergeStep [([], Prediction.mk "a" 1 [] "r1" none none, 1)]
        (Prediction.mk "b" 3 [] "r2" none none) :=
  claim_C2_fusion_merge.2.1 [([], Prediction.mk "a" 1 [] "r1" none none, 1)]
    (Prediction.mk "b" 3 [] "r2" none none) [] (Prediction.mk "a" 1 [] "r1" none none) 1
    (by simp) rfl

/-! ### Helper lemmas for `add_temporal_edge` -/

theorem add_temporal_edge_update_eq (g : Graph) (a b rel : String) (s : ℚ) (now : ℕ)
    (attrs : AttrDict) (h : hasEdge g a b = true) :
    add_temporal_edge g a b rel s now attrs =
      { g with edges := g.edges.map (fun e =>
          if e.1 == a && e.2.1 == b then
            (e.1, e.2.1, { e.2.2 with
              strength := min 1 (e.2.2.strength + s),
              last_updated := now,
              attrs := dictUpdate e.2.2.attrs attrs })
          else e) } := by
  simp [add_temporal_edge, h]

theorem hasEdge_add_temporal_edge (g : Graph) (a b rel : String) (s : ℚ) (now : ℕ)
    (attrs : AttrDict) (h : hasEdge g a b = true) :
    hasEdge (add_temporal_edge g a b rel s now attrs) a b = true := by
  rw [add_temporal_edge_update_eq g a b rel s now attrs h]
  simp only [hasEdge, List.any_map] at *
  have : ((fun e => e.1 == a && e.2.1 == b) ∘ (fun e =>
      if e.1 == a && e.2.1 == b then
        (e.1, e.2.1, { e.2.2 with
          strength := min 1 (e.2.2.strength + s),
          last_updated := now,
          attrs := dictUpdate e.2.2.attrs attrs })
      else e)) = (fun (e : String × String × EdgeData) => e.1 == a && e.2.1 == b) := by
    funext e
    simp only [Function.comp_apply]
    by_cases hc : (e.1 == a && e.2.1 == b) = true
    · rw [if_pos hc]
    · rw [if_neg hc]
  rw [this]
  exact h

theorem cap_add_temporal_edge (g : Graph) (a b rel : String) (s : ℚ) (now : ℕ)
    (attrs : AttrDict) (h : hasEdge g a b = true)
    (hb : ∀ e ∈ g.edges, e.2.2.strength ≤ 1) :
    ∀ e ∈ (add_temporal_edge g a b rel s now attrs).edges, e.2.2.strength ≤ 1 := by
  rw [add_temporal_edge_update_eq g a b rel s now attrs h]
  intro e he
  simp only [List.mem_map] at he
  obtain ⟨e0, he0, rfl⟩ := he
  by_cases hc : (e0.1 == a && e0.2.1 == b) = true
  · simp only [hc, if_true]
    exact min_le_left _ _
  · simp only [hc, if_false, Bool.false_eq_true]
    exact hb e0 he0

theorem edges_add_temporal_edge_create (g : Graph) (a b rel : String) (s : ℚ)
    (now : ℕ) (attrs : AttrDict) (h : hasEdge g a b = false) :
    (add_temporal_edge g a b rel s now attrs).edges =
      g.edges ++ [(a, b, EdgeData.mk rel s now now attrs)] := by
  simp only [add_temporal_edge, h, Bool.false_eq_true, if_false]
  split <;> split <;> rfl

/-- Claim C7: the graph keeps at most one edge per (from, to) pair —
upserting preserves pair-uniqueness and, when the edge exists, updates it in
place (same edge count, strength accumulated with `min 1`, refresh of
`last_updated` and attributes); a single upsert with strength at most 1 on a
bounded graph keeps every strength at most 1, and any further sequence of
upserts on an existing pair keeps every strength at most 1. -/
theorem claim_C7_edge_uniqueness (g : Graph) (a b rel : String) (s : ℚ) (now : ℕ) (attrs : AttrDict) :
    ((g.edges.map (fun e => (e.1, e.2.1))).Nodup →
      ((add_temporal_edge g a b rel s now attrs).edges.map (fun e => (e.1, e.2.1))).Nodup) ∧
    (hasEdge g a b = true →
      (add_temporal_edge g a b rel s now attrs).edges.length = g.edges.length ∧
      ∀ ed, (a, b, ed) ∈ g.edges →
        (a, b, { ed with
          strength := min 1 (ed.strength + s),
          last_updated := now,
          attrs := dictUpdate ed.attrs attrs }) ∈
            (add_temporal_edge g a b rel s now attrs).edges) ∧
    ((∀ e ∈ g.edges, e.2.2.strength ≤ 1) → s ≤ 1 →
      ∀ e ∈ (add_temporal_edge g a b rel s now attrs).edges, e.2.2.strength ≤ 1) ∧
    (∀ ops : List (String × ℚ × ℕ × AttrDict),
      hasEdge g a b = true → (∀ e ∈ g.edges, e.2.2.strength ≤ 1) →
      ∀ e ∈ (ops.foldl (fun h op =>
          add_temporal_edge h a b op.1 op.2.1 op.2.2.1 op.2.2.2) g).edges,
        e.2.2.strength ≤ 1) := by
  refine ⟨?_, ?_, ?_, ?_⟩
  · intro hnd
    by_cases h : hasEdge g a b
    · rw [add_temporal_edge_update_eq g a b rel s now attrs h]
      simp only [List.map_map]
      have : ((fun (e : String × String × EdgeData) => (e.1, e.2.1)) ∘ (fun e =>
          if e.1 == a && e.2.1 == b then
            (e.1, e.2.1, { e.2.2 with
              strength := min 1 (e.2.2.strength + s),
              last_updated := now,
              attrs := dictUpdate e.2.2.attrs attrs })
          else e)) = (fun (e : String × String × EdgeData) => (e.1, e.2.1)) := by
        funext e
        simp only [Function.comp_apply]
        by_cases hc : (e.1 == a && e.2.1 == b) = true
        · rw [if_pos hc]
        · rw [if_neg hc]
      rw [this]
      exact hnd
    · have h' : hasEdge g a b = false := by
        cases hx : hasEdge g a b
        · rfl
        · exact absurd hx h
      have hedges := edges_add_temporal_edge_create g a b rel s now attrs h'
      rw [hedges, List.map_append, List.nodup_append]
      refine ⟨hnd, List.nodup_singleton _, ?_⟩
      intro x hx hx2
      simp only [List.map_cons, List.map_nil, List.mem_singleton] at hx2
      subst hx2
      simp only [List.mem_map] at hx
      obtain ⟨e0, he0, heq⟩ := hx
      have : hasEdge g a b = true := by
        refine List.any_eq_true.mpr ⟨e0, he0, ?_⟩
        have h1 : e0.1 = a := congrArg Prod.fst heq
        have h2 : e0.2.1 = b := congrArg Prod.snd heq
        simp [h1, h2]
      rw [this] at h'
      exact absurd h' (by simp)
  · intro h
    rw [add_temporal_edge_update_eq g a b rel s now attrs h]
    constructor
    · simp
    · intro ed hmem
      refine List.mem_map.mpr ⟨(a, b, ed), hmem, ?_⟩
      simp
  · intro hb hs
    by_cases h : hasEdge g a b
    · exact cap_add_temporal_edge g a b rel s now attrs h hb
    · have h' : hasEdge g a b = false := by
        cases hx : hasEdge g a b
        · rfl
        · exact absurd hx h
      rw [edges_add_temporal_edge_create g a b rel s now attrs h']
      intro e he
      rcases List.mem_append.mp he with he1 | he2
      · exact hb e he1
      · simp only [List.mem_singleton] at he2
        subst he2
        exact hs
  · intro ops
    induction ops generalizing g with
    | nil => intro _ hb; exact hb
    | cons op ops ih =>
      intro h hb
      simp only [List.foldl_cons]
      exact ih _ (hasEdge_add_temporal_edge g a b op.1 op.2.1 op.2.2.1 op.2.2.2 h)
        (cap_add_temporal_edge g a b op.1 op.2.1 op.2.2.1 op.2.2.2 h hb)

/-- Claim C7 (witness): re-adding an existing edge leaves the edge count
unchanged on a concrete one-edge graph. -/
theorem claim_C7_witness :
    (add_temporal_edge
      (Graph.mk [("a", []), ("b", [])] [("a", "b", EdgeData.mk "r" (1/2) 0 0 [])] 10 1)
      "a" "b" "r2" (3/10) 5 []).edges.length =
    [("a", "b", EdgeData.mk "r" (1/2) 0 0 [])].length :=
  ((claim_C7_edge_uniqueness
    (Graph.mk [("a", []), ("b", [])] [("a", "b", EdgeData.mk "r" (1/2) 0 0 [])] 10 1)
    "a" "b" "r2" (3/10) 5 []).2.1 (by rfl)).1

/-! ### Helper lemmas for pruning (claim C4) -/

theorem dictGet_map_overwrite (d : AttrDict) (k' k : String) (v : AttrVal) (h : k' ≠ k) :
    dictGet (d.map (fun p => if p.1 == k' then (k', v) else p)) k = dictGet d k := by
  induction d with
  | nil => rfl
  | cons p d ih =>
    simp only [List.map_cons, dictGet] at *
    by_cases hp : (p.1 == k') = true
    · rw [if_pos hp]
      have h1 : (k' == k) = false := by simpa using h
      have h2 : (p.1 == k) = false := by
        have : p.1 = k' := by simpa using hp
        simpa [this] using h
      rw [List.find?_cons_of_neg _ (by simp [h1]), List.find?_cons_of_neg _ (by simp [h2])]
      exact ih
    · rw [if_neg hp]
      by_cases hk : (p.1 == k) = true
      · rw [List.find?_cons_of_pos _ (by simp [hk]), List.find?_cons_of_pos _ (by simp [hk])]
      · rw [List.find?_cons_of_neg _ (by simp [hk]), List.find?_cons_of_neg _ (by simp [hk])]
        exact ih

theorem dictGet_dictSet_ne (d : AttrDict) (k' : String) (v : AttrVal) (k : String)
    (h : k' ≠ k) : dictGet (dictSet d k' v) k = dictGet d k := by
  unfold dictSet
  split
  · exact dictGet_map_overwrite d k' k v h
  · unfold dictGet
    rw [List.find?_append]
    have h1 : (k' == k) = false := by simpa using h
    simp [List.find?, h1, dictGet]

theorem dictGet_dictSet_self (d : AttrDict) (k : String) (v : AttrVal) :
    dictGet (dictSet d k v) k = some v := by
  unfold dictSet
  split
  next hany =>
    simp only [List.any_eq_true] at hany
    obtain ⟨p0, hp0, hkey⟩ := hany
    induction d with
    | nil => simp at hp0
    | cons p d ih =>
      simp only [List.map_cons, dictGet]
      by_cases hp : (p.1 == k) = true
      · rw [if_pos hp, List.find?_cons_of_pos _ (by simp)]
        rfl
      · rw [if_neg hp]
        rcases List.mem_cons.mp hp0 with rfl | hp0'
        · exact absurd hkey hp
        · rw [List.find?_cons_of_neg _ (by simp [hp])]
          exact ih hp0'
  next hany =>
    have hnone : List.find? (fun p => p.1 == k) d = none := by
      rw [List.find?_eq_none]
      intro x hx
      by_contra hxk
      exact hany (List.any_eq_true.mpr ⟨x, hx, by simpa using hxk⟩)
    unfold dictGet
    rw [List.find?_append, hnone]
    simp [List.find?]

theorem dictGet_foldl_dictSet_ne (kvs : AttrDict) (d : AttrDict) (k : String)
    (h : ∀ kv ∈ kvs, kv.1 ≠ k) :
    dictGet (kvs.foldl (fun acc kv => dictSet acc kv.1 kv.2) d) k = dictGet d k := by
  induction kvs generalizing d with
  | nil => rfl
  | cons kv kvs ih =>
    simp only [List.foldl_cons]
    rw [ih _ (fun x hx => h x (List.mem_cons_of_mem kv hx)),
      dictGet_dictSet_ne d kv.1 kv.2 k (h kv (List.mem_cons_self kv kvs))]

theorem dictGet_activity_attrs (ty : String) (ts : ℕ) (attrs : AttrDict) :
    dictGet (("node_type", vstr "activity") :: ("activity_type", vstr ty) ::
      ("timestamp", vtime ts) :: attrs) "timestamp" = some (vtime ts) := by
  unfold dictGet
  rw [List.find?_cons_of_neg _ (by simp), List.find?_cons_of_neg _ (by simp),
    List.find?_cons_of_pos _ (by simp)]
  rfl

theorem dictGet_dictUpdate_activity (d : AttrDict) (ty : String) (ts : ℕ) (attrs : AttrDict)
    (h : ∀ kv ∈ attrs, kv.1 ≠ "timestamp") :
    dictGet (dictUpdate d (("node_type", vstr "activity") :: ("activity_type", vstr ty) ::
      ("timestamp", vtime ts) :: attrs)) "timestamp" = some (vtime ts) := by
  unfold dictUpdate
  simp only [List.foldl_cons]
  rw [dictGet_foldl_dictSet_ne attrs _ _ h]
  exact dictGet_dictSet_self _ _ _

theorem eligible_addNodeNx_activity (g : Graph) (id ty : String) (ts : ℕ) (attrs : AttrDict)
    (hall : ∀ p ∈ g.nodes, pruneEligible p.2 = true)
    (hattrs : ∀ kv ∈ attrs, kv.1 ≠ "timestamp") :
    ∀ p ∈ (addNodeNx g id ([("node_type", vstr "activity"), ("activity_type", vstr ty),
      ("timestamp", vtime ts)] ++ attrs)).nodes, pruneEligible p.2 = true := by
  intro p hp
  unfold addNodeNx at hp
  split at hp
  · simp only [List.mem_map] at hp
    obtain ⟨p0, hp0, rfl⟩ := hp
    by_cases hc : (p0.1 == id) = true
    · rw [if_pos hc]
      have hg := dictGet_dictUpdate_activity p0.2 ty ts attrs hattrs
      simp only [List.cons_append, List.nil_append] at *
      simp [pruneEligible, dictGetTruthy, hg, AttrVal.truthy]
    · rw [if_neg hc]
      exact hall p0 hp0
  · rcases List.mem_append.mp hp with h1 | h2
    · exact hall p h1
    · simp only [List.mem_singleton] at h2
      subst h2
      have hg := dictGet_activity_attrs ty ts attrs
      simp only [List.cons_append, List.nil_append] at *
      simp [pruneEligible, dictGetTruthy, hg, AttrVal.truthy]

theorem length_addNodeNx_le (g : Graph) (id : String) (attrs : AttrDict) :
    (addNodeNx g id attrs).nodes.length ≤ g.nodes.length + 1 := by
  unfold addNodeNx
  split
  · simp
  · simp

theorem max_nodes_addNodeNx (g : Graph) (id : String) (attrs : AttrDict) :
    (addNodeNx g id attrs).max_nodes = g.max_nodes := by
  unfold addNodeNx
  split <;> rfl

theorem length_filter_lt_of_memb {α : Type} (l : List α) (p : α → Bool) (x : α)
    (hx : x ∈ l) (hpx : p x = false) : (l.filter p).length < l.length := by
  induction l with
  | nil => simp at hx
  | cons a l ih =>
    rcases List.mem_cons.mp hx with rfl | hx'
    · simp only [List.filter_cons, hpx, Bool.false_eq_true, if_false]
      exact Nat.lt_succ_of_le (List.length_filter_le _ _)
    · by_cases ha : p a = true
      · simp only [List.filter_cons, ha, if_true, List.length_cons]
        exact Nat.succ_lt_succ (ih hx')
      · have ha' : p a = false := by
          cases h : p a
          · rfl
          · exact absurd h ha
        simp only [List.filter_cons, ha', Bool.false_eq_true, if_false]
        exact Nat.lt_succ_of_lt (ih hx')

theorem prune_length_lt (g : Graph)
    (hall : ∀ p ∈ g.nodes, pruneEligible p.2 = true) (hne : g.nodes ≠ []) :
    (prune_old_nodes g).nodes.length < g.nodes.length := by
  unfold prune_old_nodes
  have hts : g.nodes.filter (fun p => pruneEligible p.2) = g.nodes :=
    List.filter_eq_self.mpr hall
  simp only [hts]
  rw [if_neg (by simpa [List.isEmpty_iff] using hne)]
  obtain ⟨q, rest, hsq⟩ : ∃ q rest,
      sortAsc (fun p q => attrValLt (pruneKey p.2) (pruneKey q.2)) g.nodes = q :: rest := by
    cases hsq : sortAsc (fun p q => attrValLt (pruneKey p.2) (pruneKey q.2)) g.nodes with
    | nil =>
      have := length_sortAsc (fun p q => attrValLt (pruneKey p.2) (pruneKey q.2)) g.nodes
      rw [hsq] at this
      exact absurd (List.length_eq_zero.mp this.symm) hne
    | cons q rest => exact ⟨q, rest, rfl⟩
  have hqmem : q ∈ g.nodes := by
    have : q ∈ sortAsc (fun p q => attrValLt (pruneKey p.2) (pruneKey q.2)) g.nodes := by
      rw [hsq]
      exact List.mem_cons_self q rest
    exact mem_sortAsc.mp this
  refine length_filter_lt_of_memb _ _ q hqmem ?_
  rw [hsq]
  have hn : max 1 (g.max_nodes / 10) = (max 1 (g.max_nodes / 10) - 1) + 1 := by omega
  rw [hn, List.take_succ_cons]
  simp

theorem eq_of_nodup_map_fst {l : List (String × AttrDict)}
    (hnd : (l.map (fun p => p.1)).Nodup) (a b : String × AttrDict)
    (ha : a ∈ l) (hb : b ∈ l) (h : a.1 = b.1) : a = b := by
  induction l with
  | nil => simp at ha
  | cons x l ih =>
    simp only [List.map_cons, List.nodup_cons] at hnd
    obtain ⟨hx, hnd'⟩ := hnd
    rcases List.mem_cons.mp ha with rfl | ha' <;> rcases List.mem_cons.mp hb with rfl | hb'
    · rfl
    · exfalso
      apply hx
      rw [h]
      exact List.mem_map_of_mem (fun p => p.1) hb'
    · exfalso
      apply hx
      rw [← h]
      exact List.mem_map_of_mem (fun p => p.1) ha'
    · exact ih hnd' ha' hb'


/-- Claim C4 (amended): the capacity bound is an invariant of
activity-node insertion only — if the count was within bounds beforehand,
every node carries a truthy timestamp or creation time, and the extra
attributes do not shadow the timestamp, then after `add_activity_node` the
count at rest is at most `max_nodes`.  When pruning fires it removes nodes
that are oldest by prune key: no surviving eligible node is strictly older
than a removed one, and surviving edges never reference a removed node.
`add_context_node` never prunes (see the counterexample). -/
theorem claim_C4_amended_holds :
    (∀ (g : Graph) (id ty : String) (ts : ℕ) (attrs : AttrDict),
      g.nodes.length ≤ g.max_nodes →
      (∀ p ∈ g.nodes, pruneEligible p.2 = true) →
      (∀ kv ∈ attrs, kv.1 ≠ "timestamp") →
      (add_activity_node g id ty ts attrs).nodes.length ≤ g.max_nodes) ∧
    (∀ (g' : Graph), (g'.nodes.map (fun p => p.1)).Nodup →
      ∀ p ∈ g'.nodes, p ∉ (prune_old_nodes g').nodes → pruneEligible p.2 = true →
      ∀ q ∈ (prune_old_nodes g').nodes, pruneEligible q.2 = true →
      attrValLt (pruneKey q.2) (pruneKey p.2) = false) ∧
    (∀ (g' : Graph), ∀ p ∈ g'.nodes, p ∉ (prune_old_nodes g').nodes →
      ∀ e ∈ (prune_old_nodes g').edges, e.1 ≠ p.1 ∧ e.2.1 ≠ p.1) := by
  refine ⟨?_, ?_, ?_⟩
  · intro g id ty ts attrs hcount hall hattrs
    unfold add_activity_node
    have hmax := max_nodes_addNodeNx g id
      ([("node_type", vstr "activity"), ("activity_type", vstr ty),
        ("timestamp", vtime ts)] ++ attrs)
    have hlen := length_addNodeNx_le g id
      ([("node_type", vstr "activity"), ("activity_type", vstr ty),
        ("timestamp", vtime ts)] ++ attrs)
    set g1 := addNodeNx g id
      ([("node_type", vstr "activity"), ("activity_type", vstr ty),
        ("timestamp", vtime ts)] ++ attrs) with hg1
    by_cases hov : g1.nodes.length > g1.max_nodes
    · rw [if_pos hov]
      have hall1 : ∀ p ∈ g1.nodes, pruneEligible p.2 = true := by
        rw [hg1]
        exact eligible_addNodeNx_activity g id ty ts attrs hall hattrs
      have hne : g1.nodes ≠ [] := by
        intro hnil
        rw [hnil] at hov
        simp at hov
      have hlt := prune_length_lt g1 hall1 hne
      omega
    · rw [if_neg hov]
      omega
  · intro g' hnd p hp hpgone hpe q hq hqe
    by_cases hemp : (g'.nodes.filter (fun p => pruneEligible p.2)).isEmpty = true
    · have heq : prune_old_nodes g' = g' := by
        unfold prune_old_nodes
        simp only [hemp, if_true]
      rw [heq] at hpgone
      exact absurd hp hpgone
    · have hres : (prune_old_nodes g').nodes =
          g'.nodes.filter (fun x =>
            !(((sortAsc (fun p q => attrValLt (pruneKey p.2) (pruneKey q.2))
              (g'.nodes.filter (fun p => pruneEligible p.2))).take
                (max 1 (g'.max_nodes / 10))).map (fun p => p.1)).contains x.1) := by
        unfold prune_old_nodes
        simp only [hemp, if_false, Bool.false_eq_true]
      set sorted := sortAsc (fun p q => attrValLt (pruneKey p.2) (pruneKey q.2))
        (g'.nodes.filter (fun p => pruneEligible p.2)) with hsorted
      set n := max 1 (g'.max_nodes / 10) with hn
      set toRemove := (sorted.take n).map (fun p => p.1) with htr
      have hpid : p.1 ∈ toRemove := by
        by_contra hcon
        apply hpgone
        rw [hres]
        refine List.mem_filter.mpr ⟨hp, ?_⟩
        simp only [Bool.not_eq_eq_eq_not, Bool.not_true, Bool.not_eq_true]
        exact (Bool.not_eq_true _).mp (fun hcc => hcon (by simpa using hcc))
      have hqmem : q ∈ g'.nodes := by
        rw [hres] at hq
        exact (List.mem_filter.mp hq).1
      have hqid : q.1 ∉ toRemove := by
        rw [hres] at hq
        have := (List.mem_filter.mp hq).2
        simp only [Bool.not_eq_eq_eq_not, Bool.not_true] at this
        intro hmem
        simp at this
        exact this hmem
      have hqsorted : q ∈ sorted := by
        rw [hsorted]
        exact mem_sortAsc.mpr (List.mem_filter.mpr ⟨hqmem, hqe⟩)
      have hqdrop : q ∈ sorted.drop n := by
        rcases List.mem_append.mp ((List.take_append_drop n sorted).symm ▸ hqsorted)
          with htake | hdrop
        · exact absurd (List.mem_map_of_mem (fun p => p.1) htake) hqid
        · exact hdrop
      obtain ⟨p', hp'take, hp'id⟩ : ∃ p' ∈ sorted.take n, p'.1 = p.1 := by
        rw [htr] at hpid
        obtain ⟨p', hmem, heq⟩ := List.mem_map.mp hpid
        exact ⟨p', hmem, heq⟩
      have hp'mem : p' ∈ g'.nodes := by
        have : p' ∈ sorted := List.mem_of_mem_take hp'take
        rw [hsorted] at this
        exact (List.mem_filter.mp (mem_sortAsc.mp this)).1
      have hp'eq : p' = p := eq_of_nodup_map_fst hnd p' p hp'mem hp hp'id
      have hpw := @pairwise_sortAsc (String × AttrDict)
        (fun p q => attrValLt (pruneKey p.2) (pruneKey q.2))
        (fun a b h => attrValLt_asymm (pruneKey a.2) (pruneKey b.2) h)
        (fun a b c h1 h2 => attrValLt_trans _ _ _ h1 h2)
        (g'.nodes.filter (fun p => pruneEligible p.2))
      rw [← hsorted] at hpw
      rw [← List.take_append_drop n sorted, List.pairwise_append] at hpw
      have := hpw.2.2 p' hp'take q hqdrop
      rw [hp'eq] at this
      exact this
  · intro g' p hp hpgone e he
    by_cases hemp : (g'.nodes.filter (fun p => pruneEligible p.2)).isEmpty = true
    · have heq : prune_old_nodes g' = g' := by
        unfold prune_old_nodes
        simp only [hemp, if_true]
      rw [heq] at hpgone
      exact absurd hp hpgone
    · have hres : (prune_old_nodes g').nodes =
          g'.nodes.filter (fun x =>
            !(((sortAsc (fun p q => attrValLt (pruneKey p.2) (pruneKey q.2))
              (g'.nodes.filter (fun p => pruneEligible p.2))).take
                (max 1 (g'.max_nodes / 10))).map (fun p => p.1)).contains x.1) := by
        unfold prune_old_nodes
        simp only [hemp, if_false, Bool.false_eq_true]
      have hrese : (prune_old_nodes g').edges =
          g'.edges.filter (fun e =>
            !((((sortAsc (fun p q => attrValLt (pruneKey p.2) (pruneKey q.2))
              (g'.nodes.filter (fun p => pruneEligible p.2))).take
                (max 1 (g'.max_nodes / 10))).map (fun p => p.1)).contains e.1 ||
              (((sortAsc (fun p q => attrValLt (pruneKey p.2) (pruneKey q.2))
              (g'.nodes.filter (fun p => pruneEligible p.2))).take
                (max 1 (g'.max_nodes / 10))).map (fun p => p.1)).contains e.2.1)) := by
        unfold prune_old_nodes
        simp only [hemp, if_false, Bool.false_eq_true]
      set sorted := sortAsc (fun p q => attrValLt (pruneKey p.2) (pruneKey q.2))
        (g'.nodes.filter (fun p => pruneEligible p.2)) with hsorted
      set n := max 1 (g'.max_nodes / 10) with hn
      set toRemove := (sorted.take n).map (fun p => p.1) with htr
      have hpid : p.1 ∈ toRemove := by
        by_contra hcon
        apply hpgone
        rw [hres]
        refine List.mem_filter.mpr ⟨hp, ?_⟩
        simp only [Bool.not_eq_eq_eq_not, Bool.not_true, Bool.not_eq_true]
        exact (Bool.not_eq_true _).mp (fun hcc => hcon (by simpa using hcc))
      rw [hrese] at he
      have hpred := (List.mem_filter.mp he).2
      simp only [Bool.not_eq_eq_eq_not, Bool.not_true, Bool.or_eq_false_iff] at hpred
      obtain ⟨h1, h2⟩ := hpred
      constructor
      · intro hcon
        rw [hcon] at h1
        simp at h1
        exact h1 hpid
      · intro hcon
        rw [hcon] at h2
        simp at h2
        exact h2 hpid

/-- Claim C4 (witness): the bound applied to an empty concrete graph with
capacity 1. -/
theorem claim_C4_witness :
    (add_activity_node (Graph.mk [] [] 1 1) "a" "t" 0 []).nodes.length ≤
      (Graph.mk [] [] 1 1).max_nodes :=
  claim_C4_amended_holds.1 (Graph.mk [] [] 1 1) "a" "t" 0 []
    (by decide) (by simp) (by simp)

/-! ### Claim C5: the traversal -/

/-- A directed path in the graph from `start`, following edges whose
strength is at least `minS`, recording its length and the product of the
traversed strengths. -/
inductive PathTo (g : Graph) (minS : ℚ) (start : String) : String → ℕ → ℚ → Prop
  | refl : PathTo g minS start start 0 1
  | step {u v : String} {d : ℕ} {c : ℚ} {ed : EdgeData} :
      PathTo g minS start u d c → (u, v, ed) ∈ g.edges → ¬ ed.strength < minS →
      PathTo g minS start v (d + 1) (c * ed.strength)

/-- Soundness of one result entry of the traversal. -/
def REntryOk (g : Graph) (minS : ℚ) (start : String) (maxD : ℕ) (r : RelatedEntry) : Prop :=
  r.depth ≤ maxD ∧ PathTo g minS start r.activity_id r.depth r.strength ∧
  dictGet (nodeDataOf g r.activity_id) "node_type" = some (vstr "activity")

theorem outEdges_mem (g : Graph) (u : String) :
    ∀ nbe ∈ outEdges g u, (u, nbe.1, nbe.2) ∈ g.edges := by
  intro nbe h
  unfold outEdges at h
  obtain ⟨e, he, heq⟩ := List.mem_map.mp h
  obtain ⟨he1, he2⟩ := List.mem_filter.mp he
  have hu : e.1 = u := by simpa using he2
  have : e = (u, nbe.1, nbe.2) := by
    rw [← heq, ← hu]
  rw [← this]
  exact he1

theorem bfsExpand_inv (g : Graph) (minS : ℚ) (start : String) (maxD : ℕ)
    (current : String) (depth : ℕ) (cum : ℚ)
    (hpath : PathTo g minS start current depth cum) (hdepth : depth < maxD) :
    ∀ (es : List (String × EdgeData)), (∀ nbe ∈ es, (current, nbe.1, nbe.2) ∈ g.edges) →
    ∀ (visited : List String) (queue : List (String × ℕ × ℚ)) (related : List RelatedEntry),
    (∀ qi ∈ queue, PathTo g minS start qi.1 qi.2.1 qi.2.2) →
    (∀ r ∈ related, REntryOk g minS start maxD r) →
    (∀ qi ∈ (es.foldl (fun st nbe =>
        let visited := st.1
        let queue := st.2.1
        let related := st.2.2
        let neighbor := nbe.1
        let ed := nbe.2
        if visited.contains neighbor then st
        else if ed.strength < minS then st
        else
          let newStrength := cum * ed.strength
          let nd := nodeDataOf g neighbor
          let related2 :=
            if dictGet nd "node_type" == some (vstr "activity") then
              related ++ [{ activity_id := neighbor, relationship := ed.relationship,
                            strength := newStrength, depth := depth + 1,
                            activity_type := dictGet nd "activity_type",
                            timestamp := dictGet nd "timestamp" }]
            else related
          (visited ++ [neighbor], queue ++ [(neighbor, depth + 1, newStrength)], related2))
      (visited, queue, related)).2.1, PathTo g minS start qi.1 qi.2.1 qi.2.2) ∧
    (∀ r ∈ (es.foldl (fun st nbe =>
        let visited := st.1
        let queue := st.2.1
        let related := st.2.2
        let neighbor := nbe.1
        let ed := nbe.2
        if visited.contains neighbor then st
        else if ed.strength < minS then st
        else
          let newStrength := cum * ed.strength
          let nd := nodeDataOf g neighbor
          let related2 :=
            if dictGet nd "node_type" == some (vstr "activity") then
              related ++ [{ activity_id := neighbor, relationship := ed.relationship,
                            strength := newStrength, depth := depth + 1,
                            activity_type := dictGet nd "activity_type",
                            timestamp := dictGet nd "timestamp" }]
            else related
          (visited ++ [neighbor], queue ++ [(neighbor, depth + 1, newStrength)], related2))
      (visited, queue, related)).2.2, REntryOk g minS start maxD r) := by
  intro es
  induction es with
  | nil =>
    intro _ visited queue related hq hr
    exact ⟨hq, hr⟩
  | cons nbe es ih =>
    intro hes visited queue related hq hr
    simp only [List.foldl_cons]
    by_cases hv : visited.contains nbe.1
    · simp only [hv, if_true]
      exact ih (fun x hx => hes x (List.mem_cons_of_mem nbe hx)) visited queue related hq hr
    · simp only [hv, Bool.false_eq_true, if_false]
      by_cases hs : nbe.2.strength < minS
      · rw [if_pos hs]
        exact ih (fun x hx => hes x (List.mem_cons_of_mem nbe hx)) visited queue related hq hr
      · rw [if_neg hs]
        have hmem : (current, nbe.1, nbe.2) ∈ g.edges := hes nbe (List.mem_cons_self nbe es)
        have hstep : PathTo g minS start nbe.1 (depth + 1) (cum * nbe.2.strength) :=
          PathTo.step hpath hmem hs
        apply ih (fun x hx => hes x (List.mem_cons_of_mem nbe hx))
        · intro qi hqi
          rcases List.mem_append.mp hqi with h1 | h2
          · exact hq qi h1
          · simp only [List.mem_singleton] at h2
            subst h2
            exact hstep
        · intro r hrr
          by_cases hact : (dictGet (nodeDataOf g nbe.1) "node_type" ==
              some (vstr "activity")) = true
          · rw [if_pos hact] at hrr
            rcases List.mem_append.mp hrr with h1 | h2
            · exact hr r h1
            · simp only [List.mem_singleton] at h2
              subst h2
              refine ⟨?_, hstep, ?_⟩
              · show depth + 1 ≤ maxD
                omega
              · simpa using hact
          · rw [if_neg hact] at hrr
            exact hr r hrr

theorem bfsLoop_inv (g : Graph) (maxD : ℕ) (minS : ℚ) (start : String) :
    ∀ (fuel : ℕ) (visited : List String) (queue : List (String × ℕ × ℚ))
      (related : List RelatedEntry),
    (∀ qi ∈ queue, PathTo g minS start qi.1 qi.2.1 qi.2.2) →
    (∀ r ∈ related, REntryOk g minS start maxD r) →
    ∀ r ∈ bfsLoop g maxD minS fuel visited queue related, REntryOk g minS start maxD r := by
  intro fuel
  induction fuel with
  | zero =>
    intro visited queue related _ hr
    exact hr
  | succ fuel ih =>
    intro visited queue related hq hr
    match queue with
    | [] => exact hr
    | (current, depth, cum) :: rest =>
      show ∀ r ∈ (if maxD ≤ depth then bfsLoop g maxD minS fuel visited rest related
        else
          let st := bfsExpand g minS current depth cum (visited, rest, related)
          bfsLoop g maxD minS fuel st.1 st.2.1 st.2.2), REntryOk g minS start maxD r
      by_cases hd : maxD ≤ depth
      · rw [if_pos hd]
        exact ih visited rest related
          (fun qi hqi => hq qi (List.mem_cons_of_mem _ hqi)) hr
      · rw [if_neg hd]
        have hcur : PathTo g minS start current depth cum :=
          hq (current, depth, cum) (List.mem_cons_self _ rest)
        have hrest : ∀ qi ∈ rest, PathTo g minS start qi.1 qi.2.1 qi.2.2 :=
          fun qi hqi => hq qi (List.mem_cons_of_mem _ hqi)
        have hexp := bfsExpand_inv g minS start maxD current depth cum hcur
          (Nat.lt_of_not_le hd) (outEdges g current) (outEdges_mem g current)
          visited rest related hrest hr
        exact ih _ _ _ hexp.1 hexp.2

/-- Claim C5: every entry returned by the breadth-first traversal lies at
depth at most `max_depth` and is witnessed by a directed path of exactly that
many outgoing edges, each of strength at least `min_strength`, whose strength
product equals the reported cumulative strength; only nodes whose
`node_type` is `activity` are emitted; and the result is sorted by
cumulative strength, descending. -/
theorem claim_C5_traversal (g : Graph) (start : String) (maxD : ℕ) (minS : ℚ) :
    (∀ r ∈ get_related_activities g start maxD minS,
      r.depth ≤ maxD ∧ PathTo g minS start r.activity_id r.depth r.strength ∧
      dictGet (nodeDataOf g r.activity_id) "node_type" = some (vstr "activity")) ∧
    (get_related_activities g start maxD minS).Pairwise
      (fun a b => b.strength ≤ a.strength) := by
  unfold get_related_activities
  by_cases hn : hasNode g start
  · rw [if_pos hn]
    constructor
    · intro r hr
      have hloop := bfsLoop_inv g maxD minS start (g.edges.length + 1)
        [start] [(start, 0, 1)] []
        (by
          intro qi hqi
          simp only [List.mem_singleton] at hqi
          subst hqi
          exact PathTo.refl)
        (by intro r hr; simp at hr)
      exact hloop r (mem_sortAsc.mp hr)
    · have hpw := @pairwise_sortAsc RelatedEntry
        (fun a b => decide (b.strength < a.strength))
        (fun a b h => by
          simp only [decide_eq_true_eq, decide_eq_false_iff_not, not_lt] at *
          exact le_of_lt h)
        (fun a b c h1 h2 => by
          simp only [decide_eq_true_eq] at *
          exact lt_trans h2 h1)
        (bfsLoop g maxD minS (g.edges.length + 1) [start] [(start, 0, 1)] [])
      refine hpw.imp ?_
      intro a b h
      simp only [decide_eq_false_iff_not, not_lt] at h
      exact h
  · rw [if_neg hn]
    exact ⟨fun r hr => absurd hr (List.not_mem_nil r), List.Pairwise.nil⟩

/-- Claim C5 (witness): the traversal soundness applied to the entry
returned on a concrete two-node graph. -/
theorem claim_C5_witness :
    (RelatedEntry.mk "b" "followed_by" (1 * 1) 1 (some (vstr "t")) (some (vtime 2))).depth ≤ 2 ∧
    PathTo (Graph.mk
        [("a", [("node_type", vstr "activity"), ("activity_type", vstr "t"),
                ("timestamp", vtime 1)]),
         ("b", [("node_type", vstr "activity"), ("activity_type", vstr "t"),
                ("timestamp", vtime 2)])]
        [("a", "b", EdgeData.mk "followed_by" 1 0 0 [])] 10 1) 0 "a"
      (RelatedEntry.mk "b" "followed_by" (1 * 1) 1 (some (vstr "t"))
        (some (vtime 2))).activity_id
      (RelatedEntry.mk "b" "followed_by" (1 * 1) 1 (some (vstr "t"))
        (some (vtime 2))).depth
      (RelatedEntry.mk "b" "followed_by" (1 * 1) 1 (some (vstr "t"))
        (some (vtime 2))).strength ∧
    dictGet (nodeDataOf (Graph.mk
        [("a", [("node_type", vstr "activity"), ("activity_type", vstr "t"),
                ("timestamp", vtime 1)]),
         ("b", [("node_type", vstr "activity"), ("activity_type", vstr "t"),
                ("timestamp", vtime 2)])]
        [("a", "b", EdgeData.mk "followed_by" 1 0 0 [])] 10 1)
      (RelatedEntry.mk "b" "followed_by" (1 * 1) 1 (some (vstr "t"))
        (some (vtime 2))).activity_id) "node_type" = some (vstr "activity") :=
  (claim_C5_traversal (Graph.mk
        [("a", [("node_type", vstr "activity"), ("activity_type", vstr "t"),
                ("timestamp", vtime 1)]),
         ("b", [("node_type", vstr "activity"), ("activity_type", vstr "t"),
                ("timestamp", vtime 2)])]
        [("a", "b", EdgeData.mk "followed_by" 1 0 0 [])] 10 1) "a" 2 0).1
    (RelatedEntry.mk "b" "followed_by" (1 * 1) 1 (some (vstr "t")) (some (vtime 2)))
    (by
      norm_num [get_related_activities, bfsLoop, bfsExpand, outEdges, hasNode, nodeDataOf,
        dictGet, sortAsc, insertAsc, List.find?, List.filter, List.foldl]
      decide)
